import Mathlib

/-!
Verification of the sunglasses RFC 6962 compatibility proxy.

This file gives a shallow embedding of the core pure logic of the proxy:

* tile path encoding (`formatTileIndex`, `formatTilePath` from proxy/download.go)
* the retry loop (`downloadRetry` from proxy/download.go)
* the data-tile entry parser (`parse`, `leafInput` from proxy/download.go,
  over a model of the cryptobyte reader)
* entry materialization (`downloadEntries` from proxy/download.go)
* leaf-index upserts (`processLeafHashes` from proxy/run.go; the SQL
  `INSERT ... ON CONFLICT ... DO UPDATE ... WHERE EXCLUDED.position < leaf.position`
  is modelled by `leafUpsert`)
* the issuer cache (`getIssuer` from proxy/download.go; SHA-256 is an
  abstract hash-function parameter)
* the indexer applier and STH promotion (`Server.tick` / `Server.storeSTH`
  from proxy/run.go; the external certspotter merkletree library is
  abstracted by a `PositionOps` record of its three operations)
* the HTTP handler validation logic (`getSTHConsistency`, `getEntries`
  from proxy/handlers, over already-parsed query parameters)
* STH loading at startup (`NewServer` from proxy/server.go;
  `json.Unmarshal` is an abstract decoder parameter)

Bytes are modelled as `List Nat`.
-/

namespace Sunglasses

abbrev Bytes := List Nat

/-! ### Constants (proxy/server.go) -/

def tileHeight : Nat := 8
def entriesPerTile : Nat := 2 ^ tileHeight
def merkleHashLen : Nat := 32

/-! ### Tile path encoding (proxy/download.go, formatTileIndex / formatTilePath) -/

/-- Go `fmt.Sprintf("%03d", n)` for `n < 1000`: decimal with leading zeros to
width 3. -/
def pad3 (n : Nat) : String :=
  if n < 10 then "00" ++ toString n
  else if n < 100 then "0" ++ toString n
  else toString n

/-- The loop of `formatTileIndex`: while `tile >= 1000`, divide and prepend
an `x%03d/` group. -/
def formatTileIndexLoop (tile : Nat) (str : String) : String :=
  if tile ≥ 1000 then
    formatTileIndexLoop (tile / 1000) ("x" ++ pad3 ((tile / 1000) % 1000) ++ "/" ++ str)
  else str
termination_by tile
decreasing_by
  exact Nat.div_lt_self (by omega) (by omega)

/-- `formatTileIndex` from proxy/download.go (final version):
`str := %03d(tile%1000); for tile >= 1000 { tile /= 1000; str = x%03d(tile%1000)/str }`. -/
def formatTileIndex (tile : Nat) : String :=
  formatTileIndexLoop tile (pad3 (tile % 1000))

/-- `formatTilePath` from proxy/download.go (final version):
`"tile/" + level + "/" + formatTileIndex(tile)`, appending `".p/%d" width`
when `width != entriesPerTile`. -/
def formatTilePath (level : String) (tile : Nat) (width : Nat) : String :=
  let path := "tile/" ++ level ++ "/" ++ formatTileIndex tile
  if width ≠ entriesPerTile then path ++ ".p/" ++ toString width else path

/-- Base-1000 digits of `n`, most significant first (always nonempty). -/
def digits1000 (n : Nat) : List Nat :=
  if n ≥ 1000 then digits1000 (n / 1000) ++ [n % 1000] else [n]
termination_by n
decreasing_by
  exact Nat.div_lt_self (by omega) (by omega)

/-- The spec-side rendering of a digit list: each digit `%03d`, most
significant first, every digit but the last prefixed by `x` and followed
by `/`. -/
def renderDigits : List Nat → String
  | [] => ""
  | [d] => pad3 d
  | d :: ds => "x" ++ pad3 d ++ "/" ++ renderDigits ds

/-- Concatenation of `x%03d/` groups for a digit list. -/
def renderGroups : List Nat → String
  | [] => ""
  | d :: ds => renderGroups ds ++ "x" ++ pad3 d ++ "/"

lemma str_slash_x : ("/" : String) ++ "x" = "/x" := rfl

lemma renderGroups_append (l₁ l₂ : List Nat) :
    renderGroups (l₁ ++ l₂) = renderGroups l₂ ++ renderGroups l₁ := by
  induction l₁ with
  | nil => simp [renderGroups]
  | cons d ds ih => simp [renderGroups, ih, String.append_assoc]

lemma renderDigits_eq_groups (l : List Nat) (d : Nat) :
    renderDigits (l ++ [d]) = renderGroups l.reverse ++ pad3 d := by
  induction l with
  | nil => simp [renderDigits, renderGroups]
  | cons e es ih =>
    cases es with
    | nil => simp [renderDigits, renderGroups, String.append_assoc]
    | cons f fs =>
      show "x" ++ pad3 e ++ "/" ++ renderDigits ((f :: fs) ++ [d]) = _
      rw [ih]
      simp only [renderGroups, renderGroups_append, List.reverse_cons, String.append_assoc,
        ← str_slash_x]
      simp [String.append_assoc]

lemma digits1000_last (n : Nat) :
    ∃ l, digits1000 n = l ++ [n % 1000] := by
  rw [digits1000]
  split
  · exact ⟨digits1000 (n / 1000), rfl⟩
  · exact ⟨[], by rw [Nat.mod_eq_of_lt (by omega)]; rfl⟩

lemma formatTileIndexLoop_eq (tile : Nat) :
    ∀ s, formatTileIndexLoop tile s =
      renderGroups (digits1000 tile).reverse.tail ++ s := by
  induction tile using Nat.strong_induction_on with
  | _ tile ih =>
    intro s
    rw [formatTileIndexLoop, digits1000]
    by_cases h : tile ≥ 1000
    · simp only [if_pos h]
      rw [ih (tile / 1000) (Nat.div_lt_self (by omega) (by omega))]
      obtain ⟨l, hl⟩ := digits1000_last (tile / 1000)
      rw [hl]
      simp [renderGroups_append, renderGroups, String.append_assoc]
    · simp [if_neg h, renderGroups]

/-- `formatTileIndex` renders the base-1000 digits most-significant first,
each `%03d`, with every digit but the last prefixed by `x` and separated
by `/`. -/
lemma formatTileIndex_eq_renderDigits (tile : Nat) :
    formatTileIndex tile = renderDigits (digits1000 tile) := by
  obtain ⟨l, hl⟩ := digits1000_last tile
  rw [formatTileIndex, formatTileIndexLoop_eq, hl, renderDigits_eq_groups]
  congr 1
  rw [List.reverse_append]
  simp [renderGroups]

/-- C6 counterexample: the claim says `formatTilePath` returns paths of the
form `tile/8/<level>/...`, but the code builds `"tile/" + level + "/" + ...`
with no height segment: for level "0", tile index 1000, full width 256 the
code produces `tile/0/x001/000`, not `tile/8/0/x001/000`. -/
theorem formatTilePath_no_height_counterexample :
    formatTilePath "0" 1000 256 = "tile/0/x001/000" ∧
    formatTilePath "0" 1000 256 ≠ "tile/8/0/x001/000" := by
  have h : formatTilePath "0" 1000 256 = "tile/0/x001/000" := by
    simp [formatTilePath, entriesPerTile, tileHeight, formatTileIndex,
      formatTileIndexLoop, pad3] <;> decide
  exact ⟨h, by rw [h]; decide⟩

/-- C6 (amended): for every level string, tile index and width,
`formatTilePath` returns `"tile/<level>/"` (with no height segment) followed
by the base-1000 digits of the tile index, each formatted `%03d`,
most-significant first with every digit but the last prefixed by `x` and
separated by `/`, with `".p/<W>"` appended exactly when the width `W` differs
from 256 (a partial tile); indices 0, 1, 999, 1000, 1000000 give
`000`, `001`, `999`, `x001/000`, `x001/x000/000`. -/
theorem formatTilePath_spec (level : String) (tile width : Nat) :
    formatTilePath level tile width =
      "tile/" ++ level ++ "/" ++ renderDigits (digits1000 tile) ++
        (if width = entriesPerTile then "" else ".p/" ++ toString width) ∧
    formatTileIndex 0 = "000" ∧ formatTileIndex 1 = "001" ∧
    formatTileIndex 999 = "999" ∧ formatTileIndex 1000 = "x001/000" ∧
    formatTileIndex 1000000 = "x001/x000/000" := by
  refine ⟨?_, ?_, ?_, ?_, ?_, ?_⟩
  · rw [formatTilePath, formatTileIndex_eq_renderDigits]
    by_cases h : width = entriesPerTile
    · simp [h]
    · simp [h, String.append_assoc]
  all_goals simp [formatTileIndex, formatTileIndexLoop, pad3] <;> decide

/-! ### Signed tree head (proxy/sth.go) -/

/-- `signedTreeHead` from proxy/sth.go. -/
structure STH where
  treeSize : Nat
  timestamp : Nat
  rootHash : Bytes
  signature : Bytes
deriving DecidableEq

/-! ### HTTP handler validation (proxy handlers file)

The handlers are modelled over already-parsed numeric query parameters
(`strconv.ParseUint` succeeded); the outcome records whether the handler
answers 400 / 503, or proceeds to proof construction / entry download
with the arguments the code passes on. -/

inductive ConsistencyOutcome
  | badRequest
  | notSynced
  | prove (second first : Nat)
deriving DecidableEq

/-- `Server.getSTHConsistency` validation logic: `second <= first` is 400;
a nil STH is 503; `first >= sth.TreeSize` and `second >= sth.TreeSize` are
400; otherwise the handler calls `tlog.ProveTree(second, first, ...)`. -/
def getSTHConsistency (sth : Option STH) (first second : Nat) : ConsistencyOutcome :=
  if second ≤ first then .badRequest
  else match sth with
    | none => .notSynced
    | some s =>
      if s.treeSize ≤ first then .badRequest
      else if s.treeSize ≤ second then .badRequest
      else .prove second first

inductive EntriesOutcome
  | badRequest
  | notSynced
  | proceed (beginIncl endExcl : Nat)
deriving DecidableEq

/-- `Server.getEntries` validation logic: `end < start` is 400; a nil STH is
503; `start >= sth.TreeSize` and `end >= sth.TreeSize` are 400; otherwise
the handler calls `downloadEntries(ctx, sth, start, end+1)`. -/
def getEntriesHandler (sth : Option STH) (start endIdx : Nat) : EntriesOutcome :=
  if endIdx < start then .badRequest
  else match sth with
    | none => .notSynced
    | some s =>
      if s.treeSize ≤ start then .badRequest
      else if s.treeSize ≤ endIdx then .badRequest
      else .proceed start (endIdx + 1)

/-- C2 counterexample: with a promoted STH of tree size 2, the request
`first = 1`, `second = 2` satisfies `0 < first < second ≤ tree_size`, so the
claim requires a 200 with a consistency proof; the handler instead rejects
it with 400 at the `second >= sth.TreeSize` check. -/
theorem getSTHConsistency_rejects_treeSize_counterexample :
    (0 < 1 ∧ 1 < 2 ∧ 2 ≤ (2 : Nat)) ∧
    getSTHConsistency (some ⟨2, 0, [], []⟩) 1 2 = .badRequest := by
  exact ⟨by omega, rfl⟩

/-- C2 (amended): when a promoted STH exists, the handler proceeds to build
a consistency proof (via `tlog.ProveTree(second, first, ...)`) exactly for
parameters with `first < second < sth.tree_size` — this includes
`first = 0`, which the proof library then rejects, producing 500 rather
than 400 — and it rejects with status 400 exactly those parameters with
`second ≤ first`, `first ≥ sth.tree_size`, or `second ≥ sth.tree_size`; in
particular `second = sth.tree_size` is rejected with 400. -/
theorem getSTHConsistency_classification (s : STH) (first second : Nat) :
    (getSTHConsistency (some s) first second = .prove second first ↔
      first < second ∧ second < s.treeSize) ∧
    (getSTHConsistency (some s) first second = .badRequest ↔
      second ≤ first ∨ s.treeSize ≤ first ∨ s.treeSize ≤ second) := by
  constructor <;>
    (simp only [getSTHConsistency]; split_ifs <;> simp <;> omega)

/-- C3 counterexample: with a promoted STH of tree size 1, the request
`start = 0`, `end = 1` satisfies the claim's premises (`start ≤ end` and
`start < sth.tree_size`), so the claim requires a response with at least
one entry; the handler instead rejects it with 400 at the
`end >= sth.TreeSize` check and never downloads any entry. -/
theorem getEntries_end_bound_counterexample :
    ((0 : Nat) ≤ 1 ∧ 0 < 1) ∧
    getEntriesHandler (some ⟨1, 0, [], []⟩) 0 1 = .badRequest := by
  exact ⟨by omega, rfl⟩

/-! ### cryptobyte reader model

`cryptobyte.String` is a byte slice consumed from the front.  `readN` is
the underlying read of `n` bytes; `skipN` models `Skip`, `readUint16`
models `ReadUint16`, and `readLP k` models `ReadUintKLengthPrefixed`
(`k`-byte big-endian length followed by that many bytes). -/

def readN (n : Nat) (s : Bytes) : Option (Bytes × Bytes) :=
  if n ≤ s.length then some (s.take n, s.drop n) else none

def skipN (n : Nat) (s : Bytes) : Option Bytes :=
  (readN n s).map (·.2)

/-- Big-endian interpretation of a byte string. -/
def beNat (bs : Bytes) : Nat := bs.foldl (fun acc b => acc * 256 + b) 0

def readUint8 : Bytes → Option (Nat × Bytes)
  | [] => none
  | b :: rest => some (b, rest)

def readUint16 (s : Bytes) : Option (Nat × Bytes) :=
  (readN 2 s).map (fun p => (beNat p.1, p.2))

def readLP (k : Nat) (s : Bytes) : Option (Bytes × Bytes) := do
  let (lb, r) ← readN k s
  readN (beNat lb) r

lemma readN_eq {n : Nat} {s a b : Bytes} (h : readN n s = some (a, b)) :
    a = s.take n ∧ b = s.drop n ∧ n ≤ s.length := by
  unfold readN at h
  split at h
  case isTrue hn => cases h; exact ⟨rfl, rfl, hn⟩
  case isFalse hn => cases h

lemma readLP_eq {k : Nat} {s d r : Bytes} (h : readLP k s = some (d, r)) :
    d = (s.drop k).take (beNat (s.take k)) ∧
    r = (s.drop k).drop (beNat (s.take k)) ∧
    k + beNat (s.take k) ≤ s.length := by
  unfold readLP at h
  cases h1 : readN k s with
  | none => rw [h1] at h; exact absurd h (by simp)
  | some p =>
    obtain ⟨lb, r1⟩ := p
    rw [h1] at h
    simp only [Option.bind_eq_bind, Option.some_bind] at h
    obtain ⟨hlb, hr1, hk⟩ := readN_eq h1
    obtain ⟨hd, hr, hL⟩ := readN_eq h
    subst hlb hr1
    refine ⟨hd, hr, ?_⟩
    rw [List.length_drop] at hL
    omega

lemma readLP_length_le {k : Nat} {s d r : Bytes} (h : readLP k s = some (d, r)) :
    r.length ≤ s.length := by
  obtain ⟨-, hr, -⟩ := readLP_eq h
  subst hr
  simp only [List.length_drop]
  omega

/-- `decodeUint40` from proxy/download.go: big-endian 40-bit integer from a
5-byte buffer. -/
def decodeUint40 (b : Bytes) : Nat :=
  match b with
  | [b0, b1, b2, b3, b4] => b0 <<< 32 ||| b1 <<< 24 ||| b2 <<< 16 ||| b3 <<< 8 ||| b4
  | _ => 0

/-! ### Entry parser (proxy/download.go, entry.parse) -/

/-- The extensions loop of `entry.parse`: repeatedly read `ext_type` (u8)
and `ext_data` (u16-length-prefixed); non-zero types are skipped; a second
type-0 extension, a type-0 extension whose data is not 5 bytes, or one
whose decoded value differs from the expected leaf index, are hard errors.
Returns whether a (valid) LeafIndex extension was seen. -/
def scanExts (leafIndex : Nat) : Bytes → Bool → Option Bool
  | [], hasIdx => some hasIdx
  | t :: rest, hasIdx =>
    match h : readLP 2 rest with
    | none => none
    | some (d, r2) =>
      if t ≠ 0 then scanExts leafIndex r2 hasIdx
      else if hasIdx then none
      else if d.length ≠ 5 then none
      else if decodeUint40 d ≠ leafIndex then none
      else scanExts leafIndex r2 true
termination_by bs _ => bs.length
decreasing_by
  all_goals
    simp only [List.length_cons]
    exact Nat.lt_succ_of_le (readLP_length_le h)

/-- Declarative reading of an extensions block: the list of
`(ext_type, ext_data)` pairs it encodes, if well-formed. -/
def extPairs : Bytes → Option (List (Nat × Bytes))
  | [] => some []
  | t :: rest =>
    match h : readLP 2 rest with
    | none => none
    | some (d, r2) => (extPairs r2).map (fun ps => (t, d) :: ps)
termination_by bs => bs.length
decreasing_by
  simp only [List.length_cons]
  exact Nat.lt_succ_of_le (readLP_length_le h)

/-- The declarative property the claim states of the extensions block:
exactly one type-0 (LeafIndex) extension, whose data is exactly 5 bytes
and decodes (big-endian) to the expected leaf index. -/
def goodLeafIndexExts (ps : List (Nat × Bytes)) (leafIndex : Nat) : Prop :=
  ps.countP (fun p => p.1 = 0) = 1 ∧
  ∀ p ∈ ps, p.1 = 0 → p.2.length = 5 ∧ decodeUint40 p.2 = leafIndex

lemma scanExts_nil (leafIndex : Nat) (hasIdx : Bool) :
    scanExts leafIndex [] hasIdx = some hasIdx := by
  rw [scanExts]

lemma scanExts_cons {rest d r2 : Bytes} (leafIndex t : Nat) (hasIdx : Bool)
    (hr : readLP 2 rest = some (d, r2)) :
    scanExts leafIndex (t :: rest) hasIdx =
      if t ≠ 0 then scanExts leafIndex r2 hasIdx
      else if hasIdx then none
      else if d.length ≠ 5 then none
      else if decodeUint40 d ≠ leafIndex then none
      else scanExts leafIndex r2 true := by
  rw [scanExts, hr]

lemma scanExts_cons_none {rest : Bytes} (leafIndex t : Nat) (hasIdx : Bool)
    (hr : readLP 2 rest = none) :
    scanExts leafIndex (t :: rest) hasIdx = none := by
  rw [scanExts, hr]

lemma extPairs_nil : extPairs [] = some [] := by
  rw [extPairs]

lemma extPairs_cons {rest d r2 : Bytes} (t : Nat)
    (hr : readLP 2 rest = some (d, r2)) :
    extPairs (t :: rest) = (extPairs r2).map (fun ps => (t, d) :: ps) := by
  rw [extPairs, hr]

lemma extPairs_cons_none {rest : Bytes} (t : Nat)
    (hr : readLP 2 rest = none) :
    extPairs (t :: rest) = none := by
  rw [extPairs, hr]

lemma scanExts_spec_aux (leafIndex : Nat) :
    ∀ (n : Nat) (bs : Bytes), bs.length ≤ n → ∀ (hasIdx : Bool),
      (scanExts leafIndex bs hasIdx = some true ↔
        ∃ ps, extPairs bs = some ps ∧
          ps.countP (fun p => p.1 = 0) = (if hasIdx then 0 else 1) ∧
          ∀ p ∈ ps, p.1 = 0 → p.2.length = 5 ∧ decodeUint40 p.2 = leafIndex) := by
  intro n
  induction n with
  | zero =>
    intro bs hb hasIdx
    have : bs = [] := List.length_eq_zero.mp (Nat.le_zero.mp hb)
    subst this
    cases hasIdx <;> simp [scanExts_nil, extPairs_nil]
  | succ n ih =>
    intro bs hb hasIdx
    cases bs with
    | nil => cases hasIdx <;> simp [scanExts_nil, extPairs_nil]
    | cons t rest =>
      cases hr : readLP 2 rest with
      | none => simp [scanExts_cons_none leafIndex t hasIdx hr, extPairs_cons_none t hr]
      | some p =>
        obtain ⟨d, r2⟩ := p
        have hlen : r2.length ≤ n := by
          have := readLP_length_le hr
          simp only [List.length_cons] at hb
          omega
        rw [scanExts_cons leafIndex t hasIdx hr, extPairs_cons t hr]
        by_cases ht : t = 0
        · subst ht
          simp only [ne_eq, not_true_eq_false, if_false, if_neg]
          cases hasIdx with
          | true =>
            rw [if_pos rfl]
            constructor
            · intro h; cases h
            · rintro ⟨ps, hps, hcount, -⟩
              obtain ⟨ps2, hps2, rfl⟩ := Option.map_eq_some'.mp hps
              simp [List.countP_cons] at hcount
          | false =>
            rw [if_neg Bool.false_ne_true]
            by_cases h5 : d.length = 5
            · by_cases hdec : decodeUint40 d = leafIndex
              · simp only [h5, hdec, ne_eq, not_true_eq_false, if_false]
                rw [ih r2 hlen true]
                constructor
                · rintro ⟨ps2, hps2, hcount, hall⟩
                  refine ⟨(0, d) :: ps2, by rw [hps2]; rfl, ?_, ?_⟩
                  · simp [List.countP_cons, hcount]
                  · rintro p hp h0
                    rcases List.mem_cons.mp hp with rfl | hp2
                    · exact ⟨h5, hdec⟩
                    · exact hall p hp2 h0
                · rintro ⟨ps, hps, hcount, hall⟩
                  obtain ⟨ps2, hps2, rfl⟩ := Option.map_eq_some'.mp hps
                  refine ⟨ps2, hps2, ?_, ?_⟩
                  · simp [List.countP_cons] at hcount
                    simpa using hcount
                  · intro p hp h0
                    exact hall p (List.mem_cons_of_mem _ hp) h0
              · simp only [h5, ne_eq, not_true_eq_false, if_false, hdec, not_false_eq_true,
                  if_true]
                constructor
                · intro h; cases h
                · rintro ⟨ps, hps, hcount, hall⟩
                  obtain ⟨ps2, hps2, rfl⟩ := Option.map_eq_some'.mp hps
                  exact absurd (hall (0, d) (List.mem_cons_self _ _) rfl).2 hdec
            · simp only [ne_eq, h5, not_false_eq_true, if_true]
              constructor
              · intro h; cases h
              · rintro ⟨ps, hps, hcount, hall⟩
                obtain ⟨ps2, hps2, rfl⟩ := Option.map_eq_some'.mp hps
                exact absurd (hall (0, d) (List.mem_cons_self _ _) rfl).1 h5
        · simp only [ne_eq, ht, not_false_eq_true, if_true]
          rw [ih r2 hlen hasIdx]
          constructor
          · rintro ⟨ps2, hps2, hcount, hall⟩
            refine ⟨(t, d) :: ps2, by rw [hps2]; rfl, ?_, ?_⟩
            · simp [List.countP_cons, ht, hcount]
            · rintro p hp h0
              rcases List.mem_cons.mp hp with rfl | hp2
              · exact absurd h0 ht
              · exact hall p hp2 h0
          · rintro ⟨ps, hps, hcount, hall⟩
            obtain ⟨ps2, hps2, rfl⟩ := Option.map_eq_some'.mp hps
            refine ⟨ps2, hps2, ?_, ?_⟩
            · simpa [List.countP_cons, ht] using hcount
            · intro p hp h0
              exact hall p (List.mem_cons_of_mem _ hp) h0

lemma scanExts_spec (leafIndex : Nat) (bs : Bytes) :
    scanExts leafIndex bs false = some true ↔
      ∃ ps, extPairs bs = some ps ∧ goodLeafIndexExts ps leafIndex := by
  have := scanExts_spec_aux leafIndex bs.length bs le_rfl false
  simpa [goodLeafIndexExts] using this

/-- `entry` from proxy/download.go: `timestampedEntry`, `precertificate`
(`none` iff certificate entry), `chain` of 32-byte fingerprints. -/
structure Entry where
  timestampedEntry : Bytes
  precertificate : Option Bytes
  chain : List Bytes
deriving DecidableEq

/-- The `TimestampedEntry.signed_entry` part of `entry.parse`: for
`entry_type = 0` a u24-length-prefixed certificate; for `entry_type = 1` a
32-byte `issuer_key_hash` then a u24-length-prefixed `tbs_certificate`;
any other type is an error. Returns the unread remainder. -/
def parseSignedEntry (entryType : Nat) (s : Bytes) : Option Bytes :=
  if entryType = 0 then (readLP 3 s).map (·.2)
  else if entryType = 1 then
    match skipN 32 s with
    | none => none
    | some s2 => (readLP 3 s2).map (·.2)
  else none

/-- `entry.parse` from the 8-byte timestamp through `signed_entry`:
returns the entry type and the unread remainder. -/
def parseHead (input : Bytes) : Option (Nat × Bytes) :=
  match skipN 8 input with
  | none => none
  | some s1 =>
    match readUint16 s1 with
    | none => none
    | some (entryType, s2) =>
      match parseSignedEntry entryType s2 with
      | none => none
      | some s3 => some (entryType, s3)

/-- The `certificate_chain` loop of `entry.parse`: zero or more 32-byte
fingerprints until the block is empty; a trailing fragment shorter than
32 bytes is an error. -/
def readChain : Bytes → Option (List Bytes)
  | [] => some []
  | b :: rest =>
    match h : readN 32 (b :: rest) with
    | none => none
    | some (fp, r2) => (readChain r2).map (fp :: ·)
termination_by s => s.length
decreasing_by
  obtain ⟨-, hr, hlen⟩ := readN_eq h
  subst hr
  simp only [List.length_drop]
  simp only [List.length_cons] at hlen ⊢
  omega

/-- `entry.parse` from proxy/download.go (final version).  Reads the
header, isolates the u16-length-prefixed extensions block and runs the
extensions loop (`scanExts`), records the consumed prefix as
`timestampedEntry`, then reads the precertificate (type 1 only) and the
certificate chain.  Returns the parsed entry and the unread remainder. -/
def parse (input : Bytes) (leafIndex : Nat) : Option (Entry × Bytes) :=
  match parseHead input with
  | none => none
  | some (entryType, s3) =>
    match readLP 2 s3 with
    | none => none
    | some (extB, s4) =>
      match scanExts leafIndex extB false with
      | none => none
      | some false => none
      | some true =>
        match (if entryType = 1 then (readLP 3 s4).map (fun p => (some p.1, p.2))
               else some ((none : Option Bytes), s4)) with
        | none => none
        | some (precert, s5) =>
          match readLP 2 s5 with
          | none => none
          | some (chainB, s6) =>
            match readChain chainB with
            | none => none
            | some chain =>
              some (⟨input.take (input.length - s4.length), precert, chain⟩, s6)

/-- `entry.leafInput` from proxy/download.go:
`append([]byte{0, 0}, e.timestampedEntry...)`. -/
def leafInput (e : Entry) : Bytes := 0 :: 0 :: e.timestampedEntry

lemma skipN_eq {n : Nat} {s s' : Bytes} (h : skipN n s = some s') :
    s' = s.drop n ∧ n ≤ s.length := by
  unfold skipN at h
  cases hr : readN n s with
  | none => rw [hr] at h; cases h
  | some p =>
    rw [hr] at h
    cases h
    obtain ⟨-, h2, h3⟩ := readN_eq hr
    exact ⟨h2, h3⟩

lemma readUint16_eq {s : Bytes} {v : Nat} {r : Bytes}
    (h : readUint16 s = some (v, r)) :
    v = beNat (s.take 2) ∧ r = s.drop 2 ∧ 2 ≤ s.length := by
  unfold readUint16 at h
  cases hr : readN 2 s with
  | none => rw [hr] at h; cases h
  | some p =>
    rw [hr] at h
    cases h
    obtain ⟨h1, h2, h3⟩ := readN_eq hr
    exact ⟨by rw [h1], h2, h3⟩

lemma parseSignedEntry_drop {et : Nat} {s s' : Bytes}
    (h : parseSignedEntry et s = some s') :
    ∃ m, m ≤ s.length ∧ s' = s.drop m := by
  unfold parseSignedEntry at h
  split_ifs at h with h0 h1
  · obtain ⟨⟨d, r⟩, hr, hmap⟩ := Option.map_eq_some'.mp h
    obtain ⟨-, hr2, hle⟩ := readLP_eq hr
    refine ⟨3 + beNat (s.take 3), hle, ?_⟩
    rw [← hmap]
    show r = _
    rw [hr2, List.drop_drop, Nat.add_comm]
  · cases hskip : skipN 32 s with
    | none => rw [hskip] at h; cases h
    | some s2 =>
      rw [hskip] at h
      obtain ⟨hs2, hs32⟩ := skipN_eq hskip
      obtain ⟨⟨d, r⟩, hr, hmap⟩ := Option.map_eq_some'.mp h
      obtain ⟨-, hr2, hle⟩ := readLP_eq hr
      refine ⟨32 + (3 + beNat (s2.take 3)), ?_, ?_⟩
      · rw [hs2] at hle
        rw [List.length_drop] at hle
        rw [hs2]
        omega
      · rw [← hmap]
        show r = _
        rw [hr2, List.drop_drop, hs2, List.drop_drop]

lemma parseHead_drop {input : Bytes} {et : Nat} {s3 : Bytes}
    (h : parseHead input = some (et, s3)) :
    ∃ k, 10 ≤ k ∧ k ≤ input.length ∧ s3 = input.drop k := by
  unfold parseHead at h
  split at h
  · cases h
  rename_i s1 h1
  split at h
  · cases h
  rename_i et' s2 h2
  split at h
  · cases h
  rename_i s3' h3
  cases h
  obtain ⟨hs1, h8⟩ := skipN_eq h1
  obtain ⟨-, hs2, h2le⟩ := readUint16_eq h2
  obtain ⟨m, hmle, hs3⟩ := parseSignedEntry_drop h3
  subst hs2
  subst hs1
  refine ⟨8 + 2 + m, by omega, ?_, ?_⟩
  · simp only [List.length_drop] at hmle h2le
    omega
  · rw [hs3, List.drop_drop, List.drop_drop]
    congr 1
    omega

/-- C4: `entry.parse` called with expected absolute leaf index `i` succeeds
only if the u16-length-prefixed extensions block parses into extensions of
which exactly one has type 0, and that one's data is exactly 5 bytes and
decodes as a big-endian 40-bit integer equal to `i`; conversely, whenever
the extensions block parses into a pair list violating this (a duplicate
LeafIndex extension, a missing one, a wrong-length one, or a value
different from `i`), `parse` returns an error. -/
theorem parse_requires_leafIndex_extension :
    (∀ (input : Bytes) (li : Nat), (parse input li).isSome →
      ∃ et s3 extB s4 ps,
        parseHead input = some (et, s3) ∧
        readLP 2 s3 = some (extB, s4) ∧
        extPairs extB = some ps ∧
        ps.countP (fun p => p.1 = 0) = 1 ∧
        ∀ p ∈ ps, p.1 = 0 → p.2.length = 5 ∧ decodeUint40 p.2 = li) ∧
    (∀ (input : Bytes) (li et : Nat) (s3 extB s4 : Bytes) (ps : List (Nat × Bytes)),
      parseHead input = some (et, s3) →
      readLP 2 s3 = some (extB, s4) →
      extPairs extB = some ps →
      ¬ goodLeafIndexExts ps li →
      parse input li = none) := by
  constructor
  · intro input li h
    unfold parse at h
    split at h
    · simp at h
    rename_i et s3 h1
    split at h
    · simp at h
    rename_i extB s4 h2
    split at h
    · simp at h
    · simp at h
    rename_i h3
    obtain ⟨ps, hps, hcount, hall⟩ := (scanExts_spec li extB).mp h3
    exact ⟨et, s3, extB, s4, ps, h1, h2, hps, hcount, hall⟩
  · intro input li et s3 extB s4 ps h1 h2 hext hbad
    have hscan : scanExts li extB false ≠ some true := by
      intro hcontra
      obtain ⟨ps', hps', hgood⟩ := (scanExts_spec li extB).mp hcontra
      rw [hext] at hps'
      cases hps'
      exact hbad hgood
    unfold parse
    split
    · rfl
    rename_i et' s3' h1'
    rw [h1] at h1'
    cases h1'
    split
    · rfl
    rename_i extB' s4' h2'
    rw [h2] at h2'
    cases h2'
    split
    · rfl
    · rfl
    rename_i h3
    exact absurd h3 hscan

/-- C4 witness: a concrete well-formed x509 entry (timestamp 0, empty
certificate, a single LeafIndex extension encoding 3, empty chain) parses
at expected leaf index 3, and the theorem yields its extension-block
characterization. -/
theorem parse_requires_leafIndex_extension_witness :
    (parse [0, 0, 0, 0, 0, 0, 0, 0, 0, 0, 0, 0, 0, 0, 8,
            0, 0, 5, 0, 0, 0, 0, 3, 0, 0] 3).isSome ∧
    ∃ et s3 extB s4 ps,
      parseHead [0, 0, 0, 0, 0, 0, 0, 0, 0, 0, 0, 0, 0, 0, 8,
                 0, 0, 5, 0, 0, 0, 0, 3, 0, 0] = some (et, s3) ∧
      readLP 2 s3 = some (extB, s4) ∧
      extPairs extB = some ps ∧
      ps.countP (fun p => p.1 = 0) = 1 ∧
      ∀ p ∈ ps, p.1 = 0 → p.2.length = 5 ∧ decodeUint40 p.2 = 3 := by
  have h : (parse [0, 0, 0, 0, 0, 0, 0, 0, 0, 0, 0, 0, 0, 0, 8,
                   0, 0, 5, 0, 0, 0, 0, 3, 0, 0] 3).isSome := by
    simp [parse, parseHead, parseSignedEntry, scanExts, extPairs, readChain,
      readLP, readN, skipN, readUint16, beNat, decodeUint40]
  exact ⟨h, parse_requires_leafIndex_extension.1 _ 3 h⟩

/-- C5: for every entry that `entry.parse` accepts, `leafInput()` equals the
two bytes `0x00 0x00` followed by exactly the input bytes from the start of
the entry through the end of the extensions block, including the extensions
length prefix: the input decomposes as
`pre ++ lenB ++ extB ++ tail` (header and signed_entry, the 2-byte
extensions length prefix, the extensions block of exactly that length, and
the unconsumed remainder), and `timestampedEntry` is exactly
`pre ++ lenB ++ extB`. -/
theorem leafInput_is_consumed_prefix (input : Bytes) (li : Nat) (e : Entry)
    (rest : Bytes) (h : parse input li = some (e, rest)) :
    ∃ (pre lenB extB tail : Bytes),
      input = pre ++ lenB ++ extB ++ tail ∧
      10 ≤ pre.length ∧ lenB.length = 2 ∧ extB.length = beNat lenB ∧
      e.timestampedEntry = pre ++ lenB ++ extB ∧
      leafInput e = 0 :: 0 :: (pre ++ lenB ++ extB) := by
  unfold parse at h
  split at h
  · cases h
  rename_i et s3 h1
  split at h
  · cases h
  rename_i extB0 s4 h2
  split at h
  · cases h
  · cases h
  rename_i h3
  split at h
  · cases h
  rename_i precert s5 h4
  split at h
  · cases h
  rename_i chainB s6 h5
  split at h
  · cases h
  rename_i chain h6
  rw [Option.some.injEq, Prod.mk.injEq] at h
  obtain ⟨he, hrest⟩ := h
  obtain ⟨k, hk10, hkle, hs3⟩ := parseHead_drop h1
  obtain ⟨hextB, hs4, hlp⟩ := readLP_eq h2
  subst hs3
  refine ⟨input.take k, (input.drop k).take 2,
    ((input.drop k).drop 2).take (beNat ((input.drop k).take 2)), s4,
    ?_, ?_, ?_, ?_, ?_, ?_⟩
  · rw [hs4]
    simp [List.take_append_drop]
  · rw [List.length_take]
    rw [List.length_drop] at hlp
    omega
  · rw [List.length_take]
    rw [List.length_drop] at hlp
    simp only [List.length_drop]
    omega
  · rw [List.length_take]
    rw [List.length_drop] at hlp
    simp only [List.length_drop, List.length_take]
    omega
  · have hte : e.timestampedEntry = input.take (input.length - s4.length) := by
      rw [← he]
    have hs4len : s4.length = input.length - (k + 2 + beNat ((input.drop k).take 2)) := by
      rw [hs4]
      simp only [List.length_drop]
      omega
    have hK : input.length - s4.length = k + (2 + beNat ((input.drop k).take 2)) := by
      rw [hs4len]
      rw [List.length_drop] at hlp
      omega
    rw [hte, hK, List.take_add, List.take_add]
    simp [List.append_assoc]
  · have hli : leafInput e = 0 :: 0 :: e.timestampedEntry := rfl
    have hte : e.timestampedEntry = input.take (input.length - s4.length) := by
      rw [← he]
    have hs4len : s4.length = input.length - (k + 2 + beNat ((input.drop k).take 2)) := by
      rw [hs4]
      simp only [List.length_drop]
      omega
    have hK : input.length - s4.length = k + (2 + beNat ((input.drop k).take 2)) := by
      rw [hs4len]
      rw [List.length_drop] at hlp
      omega
    rw [hli, hte, hK, List.take_add, List.take_add]
    simp [List.append_assoc]

/-- C5 witness: a concrete precertificate entry (type 1) parses at leaf
index 1 and its `leafInput` decomposes as the theorem states. -/
theorem leafInput_is_consumed_prefix_witness :
    ∃ e rest,
      parse ([0, 0, 0, 0, 0, 0, 0, 0] ++ [0, 1] ++ List.replicate 32 9 ++
             [0, 0, 1, 170] ++ [0, 8] ++ [0, 0, 5, 0, 0, 0, 0, 1] ++
             [0, 0, 2, 1, 2] ++ [0, 0]) 1 = some (e, rest) ∧
      ∃ (pre lenB extB tail : Bytes),
        ([0, 0, 0, 0, 0, 0, 0, 0] ++ [0, 1] ++ List.replicate 32 9 ++
         [0, 0, 1, 170] ++ [0, 8] ++ [0, 0, 5, 0, 0, 0, 0, 1] ++
         [0, 0, 2, 1, 2] ++ [0, 0] : Bytes) = pre ++ lenB ++ extB ++ tail ∧
        10 ≤ pre.length ∧ lenB.length = 2 ∧ extB.length = beNat lenB ∧
        e.timestampedEntry = pre ++ lenB ++ extB ∧
        leafInput e = 0 :: 0 :: (pre ++ lenB ++ extB) := by
  have h : ∃ pr, parse ([0, 0, 0, 0, 0, 0, 0, 0] ++ [0, 1] ++ List.replicate 32 9 ++
             [0, 0, 1, 170] ++ [0, 8] ++ [0, 0, 5, 0, 0, 0, 0, 1] ++
             [0, 0, 2, 1, 2] ++ [0, 0]) 1 = some pr := by
    rw [Option.isSome_iff_exists.symm]
    simp [parse, parseHead, parseSignedEntry, scanExts, extPairs, readChain,
      readLP, readN, skipN, readUint16, beNat, decodeUint40, List.replicate]
  obtain ⟨⟨e, rest⟩, hpr⟩ := h
  exact ⟨e, rest, hpr, leafInput_is_consumed_prefix _ 1 e rest hpr⟩

/-! ### Entry materialization (proxy/download.go, Server.downloadEntries) -/

/-- The skip loop of `downloadEntries`: parse and discard `count` entries,
the `i`-th at absolute leaf index `idx + i`. -/
def skipEntries : Bytes → Nat → Nat → Option Bytes
  | data, _, 0 => some data
  | data, idx, n + 1 =>
    match parse data idx with
    | none => none
    | some (_, rest) => skipEntries rest (idx + 1) n

/-- The read loop of `downloadEntries`: parse `count` entries, the `i`-th
at absolute leaf index `idx + i`. -/
def readEntries : Bytes → Nat → Nat → Option (List Entry × Bytes)
  | data, _, 0 => some ([], data)
  | data, idx, n + 1 =>
    match parse data idx with
    | none => none
    | some (e, rest) =>
      match readEntries rest (idx + 1) n with
      | none => none
      | some (es, r) => some (e :: es, r)

/-- `Server.downloadEntries` modulo I/O: given the bytes of the single data
tile containing `beginIncl` (`tile = beginIncl / entriesPerTile`), skip the
first `beginIncl % entriesPerTile` entries of the tile, then parse
`min(entriesPerTile, endExcl - tile*entriesPerTile) - skip` entries at
their absolute leaf indices.  Issuer resolution and extra_data encoding
are not modelled; the parsed entries are returned. -/
def downloadEntries (tileData : Bytes) (beginIncl endExcl : Nat) :
    Option (List Entry) :=
  match skipEntries tileData ((beginIncl / entriesPerTile) * entriesPerTile)
      (beginIncl % entriesPerTile) with
  | none => none
  | some data2 =>
    match readEntries data2 beginIncl
        (min entriesPerTile (endExcl - (beginIncl / entriesPerTile) * entriesPerTile)
          - beginIncl % entriesPerTile) with
    | none => none
    | some (es, _) => some es

lemma readEntries_length :
    ∀ (n : Nat) (data : Bytes) (idx : Nat) (es : List Entry) (r : Bytes),
      readEntries data idx n = some (es, r) → es.length = n := by
  intro n
  induction n with
  | zero =>
    intro data idx es r h
    unfold readEntries at h
    cases h
    rfl
  | succ n ih =>
    intro data idx es r h
    unfold readEntries at h
    split at h
    · cases h
    rename_i e rest hp
    split at h
    · cases h
    rename_i es2 r2 hr
    cases h
    simp [ih _ _ _ _ hr]

lemma readEntries_parse :
    ∀ (n : Nat) (data : Bytes) (idx : Nat) (es : List Entry) (r : Bytes),
      readEntries data idx n = some (es, r) →
      ∀ (k : Nat) (hk : k < es.length),
        ∃ d' r', parse d' (idx + k) = some (es.get ⟨k, hk⟩, r') := by
  intro n
  induction n with
  | zero =>
    intro data idx es r h
    unfold readEntries at h
    cases h
    intro k hk
    exact absurd hk (by simp)
  | succ n ih =>
    intro data idx es r h
    unfold readEntries at h
    split at h
    · cases h
    rename_i e rest hp
    split at h
    · cases h
    rename_i es2 r2 hr
    cases h
    intro k hk
    cases k with
    | zero => exact ⟨data, rest, by simpa using hp⟩
    | succ k =>
      obtain ⟨d', r', hp'⟩ := ih _ _ _ _ hr k (by simpa using hk)
      refine ⟨d', r', ?_⟩
      rw [show idx + (k + 1) = idx + 1 + k by omega]
      exact hp'

/-- C3 (amended): for every get-entries request made when a promoted STH
exists, with `start ≤ end` and `end < sth.tree_size` (the handler rejects
`end ≥ sth.tree_size` with 400), the handler proceeds with
`downloadEntries(start, end+1)`, and whenever that succeeds the response
contains exactly `min(entriesPerTile, end+1 - tile*entriesPerTile) - start % entriesPerTile ≥ 1`
entries, every one parsed at its absolute leaf index `start + k`, all of
which lie in the single leaf tile `tile = start / entriesPerTile`
containing `start`. -/
theorem getEntries_single_tile (s : STH) (start endIdx : Nat) (tileData : Bytes)
    (entries : List Entry)
    (hse : start ≤ endIdx) (hend : endIdx < s.treeSize)
    (hdl : downloadEntries tileData start (endIdx + 1) = some entries) :
    getEntriesHandler (some s) start endIdx = .proceed start (endIdx + 1) ∧
    entries.length =
      min entriesPerTile (endIdx + 1 - (start / entriesPerTile) * entriesPerTile)
        - start % entriesPerTile ∧
    1 ≤ entries.length ∧
    ∀ (k : Nat) (hk : k < entries.length),
      (start + k) / entriesPerTile = start / entriesPerTile ∧
      ∃ d r, parse d (start + k) = some (entries.get ⟨k, hk⟩, r) := by
  have h256 : entriesPerTile = 256 := rfl
  have hh : getEntriesHandler (some s) start endIdx = .proceed start (endIdx + 1) := by
    unfold getEntriesHandler
    rw [if_neg (by omega)]
    show (if s.treeSize ≤ start then EntriesOutcome.badRequest
      else if s.treeSize ≤ endIdx then EntriesOutcome.badRequest
      else EntriesOutcome.proceed start (endIdx + 1)) = _
    rw [if_neg (by omega), if_neg (by omega)]
  unfold downloadEntries at hdl
  split at hdl
  · cases hdl
  rename_i data2 hskip
  split at hdl
  · cases hdl
  rename_i es r hread
  cases hdl
  have hlen := readEntries_length _ _ _ _ _ hread
  have hparse := readEntries_parse _ _ _ _ _ hread
  refine ⟨hh, hlen, ?_, ?_⟩
  · rw [hlen]
    rw [h256] at *
    omega
  · intro k hk
    refine ⟨?_, hparse k hk⟩
    rw [hlen] at hk
    rw [h256] at *
    omega

/-- C3 witness: a one-entry data tile (x509 entry with LeafIndex 0) with a
promoted STH of tree size 1 and the request `start = 0`, `end = 0`: the
handler proceeds and the response has (exactly) one entry. -/
theorem getEntries_single_tile_witness :
    ∃ entries,
      downloadEntries [0, 0, 0, 0, 0, 0, 0, 0, 0, 0, 0, 0, 0, 0, 8,
                       0, 0, 5, 0, 0, 0, 0, 0, 0, 0] 0 1 = some entries ∧
      getEntriesHandler (some ⟨1, 0, [], []⟩) 0 0 = .proceed 0 1 ∧
      1 ≤ entries.length := by
  have h : ∃ es, downloadEntries [0, 0, 0, 0, 0, 0, 0, 0, 0, 0, 0, 0, 0, 0, 8,
                       0, 0, 5, 0, 0, 0, 0, 0, 0, 0] 0 1 = some es := by
    rw [Option.isSome_iff_exists.symm]
    simp [downloadEntries, skipEntries, readEntries, entriesPerTile, tileHeight,
      parse, parseHead, parseSignedEntry, scanExts, extPairs, readChain,
      readLP, readN, skipN, readUint16, beNat, decodeUint40]
  obtain ⟨es, hdl⟩ := h
  have hthm := getEntries_single_tile ⟨1, 0, [], []⟩ 0 0 _ es (by omega) (by decide) hdl
  exact ⟨es, hdl, hthm.1, hthm.2.2.1⟩

/-! ### Leaf index table (proxy/run.go, Server.processLeafHashes) -/

abbrev LeafTbl := Bytes → Option Nat

/-- The SQL statement executed for each leaf hash by `processLeafHashes`:
`INSERT INTO leaf (hash, position) VALUES ($1, $2) ON CONFLICT (hash)
DO UPDATE SET position = EXCLUDED.position
WHERE EXCLUDED.position < leaf.position`. -/
def leafUpsert (tbl : LeafTbl) (hash : Bytes) (idx : Nat) : LeafTbl :=
  fun h =>
    if h = hash then
      match tbl hash with
      | none => some idx
      | some cur => if idx < cur then some idx else some cur
    else tbl h

def emptyLeafTbl : LeafTbl := fun _ => none

/-- Applying a sequence of `(hash, index)` insertions in order. -/
def applyInserts (l : List (Bytes × Nat)) (tbl : LeafTbl) : LeafTbl :=
  l.foldl (fun t p => leafUpsert t p.1 p.2) tbl

/-- The smallest index among the insertions for a given hash (the
declarative description of the table's contents). -/
def minIndex (hash : Bytes) : List (Bytes × Nat) → Option Nat
  | [] => none
  | p :: l =>
    if p.1 = hash then
      match minIndex hash l with
      | none => some p.2
      | some m => some (min p.2 m)
    else minIndex hash l

def optMin : Option Nat → Option Nat → Option Nat
  | none, b => b
  | some a, none => some a
  | some a, some b => some (min a b)

lemma optMin_none_right (a : Option Nat) : optMin a none = a := by
  cases a <;> rfl

lemma optMin_assoc (a b c : Option Nat) :
    optMin (optMin a b) c = optMin a (optMin b c) := by
  cases a <;> cases b <;> cases c <;> simp [optMin, Nat.min_assoc]

lemma optMin_comm (a b : Option Nat) : optMin a b = optMin b a := by
  cases a <;> cases b <;> simp [optMin, Nat.min_comm]

lemma leafUpsert_lookup (tbl : LeafTbl) (hash : Bytes) (idx : Nat) (h : Bytes) :
    leafUpsert tbl hash idx h =
      if h = hash then optMin (tbl h) (some idx) else tbl h := by
  unfold leafUpsert
  by_cases he : h = hash
  · subst he
    cases htbl : tbl h with
    | none => simp [htbl, optMin]
    | some cur =>
      simp only [htbl, if_pos rfl, optMin]
      by_cases hlt : idx < cur
      · rw [if_pos hlt, Nat.min_comm, Nat.min_eq_left (by omega)]
      · rw [if_neg hlt, Nat.min_comm, Nat.min_eq_right (by omega)]
  · simp [he]

lemma minIndex_cons (hash : Bytes) (p : Bytes × Nat) (l : List (Bytes × Nat)) :
    minIndex hash (p :: l) =
      optMin (if p.1 = hash then some p.2 else none) (minIndex hash l) := by
  rw [minIndex]
  by_cases he : p.1 = hash
  · rw [if_pos he, if_pos he]
    cases hm : minIndex hash l <;> simp [hm, optMin]
  · rw [if_neg he, if_neg he]
    simp [optMin]

lemma applyInserts_lookup :
    ∀ (l : List (Bytes × Nat)) (tbl : LeafTbl) (h : Bytes),
      applyInserts l tbl h = optMin (tbl h) (minIndex h l) := by
  intro l
  induction l with
  | nil => intro tbl h; simp [applyInserts, minIndex, optMin_none_right]
  | cons p l ih =>
    intro tbl h
    show applyInserts l (leafUpsert tbl p.1 p.2) h = _
    rw [ih, minIndex_cons, leafUpsert_lookup, ← optMin_assoc]
    by_cases he : h = p.1
    · rw [if_pos he, if_pos he.symm]
    · rw [if_neg he, if_neg fun hc => he hc.symm, optMin_none_right]

lemma minIndex_perm {l l' : List (Bytes × Nat)} (hp : l.Perm l') (h : Bytes) :
    minIndex h l = minIndex h l' := by
  induction hp with
  | nil => rfl
  | cons p hp ih => rw [minIndex_cons, minIndex_cons, ih]
  | swap p q l =>
    rw [minIndex_cons, minIndex_cons, minIndex_cons, minIndex_cons,
      ← optMin_assoc, ← optMin_assoc, optMin_comm (if q.1 = h then some q.2 else none)]
  | trans hp1 hp2 ih1 ih2 => rw [ih1, ih2]

/-! ### Indexer applier (proxy/run.go, Server.tick) -/

/-- The three operations `Server.tick` uses on the position
(`merkletree.FragmentedCollapsedTree` from the external certspotter
library, kept abstract): `AddHash`, `IsComplete`, and
`Subtree(0).CalculateRoot()`. -/
structure PositionOps (Pos : Type) where
  addHash : Pos → Nat → Bytes → Pos
  isComplete : Pos → Nat → Bool
  calcRoot : Pos → Bytes

/-- `leafHashes` from proxy/run.go: a downloader batch of consecutive leaf
hashes starting at `startIndex`. -/
structure LeafHashes where
  startIndex : Nat
  hashes : List Bytes

/-- The loop body of `Server.processLeafHashes`: for each hash at its
absolute index, `position.AddHash(index, hash)` and the leaf-table
upsert, with the index incremented per hash. -/
def processHashes {Pos : Type} (ops : PositionOps Pos) :
    Pos → LeafTbl → Nat → List Bytes → Pos × LeafTbl
  | pos, tbl, _, [] => (pos, tbl)
  | pos, tbl, i, h :: hs =>
    processHashes ops (ops.addHash pos i h) (leafUpsert tbl h i) (i + 1) hs

/-- `Server.processLeafHashes` from proxy/run.go. -/
def processLeafHashes {Pos : Type} (ops : PositionOps Pos)
    (st : Pos × LeafTbl) (b : LeafHashes) : Pos × LeafTbl :=
  processHashes ops st.1 st.2 b.startIndex b.hashes

/-- The `(hash, index)` pairs a batch starting at index `i` inserts. -/
def pairsFrom (i : Nat) : List Bytes → List (Bytes × Nat)
  | [] => []
  | h :: hs => (h, i) :: pairsFrom (i + 1) hs

lemma processHashes_leaf {Pos : Type} (ops : PositionOps Pos) :
    ∀ (hs : List Bytes) (pos : Pos) (tbl : LeafTbl) (i : Nat),
      (processHashes ops pos tbl i hs).2 = applyInserts (pairsFrom i hs) tbl := by
  intro hs
  induction hs with
  | nil => intro pos tbl i; rfl
  | cons h hs ih =>
    intro pos tbl i
    show (processHashes ops (ops.addHash pos i h) (leafUpsert tbl h i) (i + 1) hs).2 = _
    rw [ih]
    rfl

/-- C7: leaf-index insertion is idempotent and order-independent.  The
batch processor's leaf-table component is the fold of `leafUpsert` over
the `(hash, index)` pairs; after any sequence of insertions the table maps
each hash to the minimum index ever inserted for it; any permutation of
the insertions yields the same table; and re-inserting an existing hash
with an equal or larger index leaves the table unchanged. -/
theorem leafIndex_min_idempotent :
    (∀ {Pos : Type} (ops : PositionOps Pos) (hs : List Bytes) (pos : Pos)
       (tbl : LeafTbl) (i : Nat),
       (processHashes ops pos tbl i hs).2 = applyInserts (pairsFrom i hs) tbl) ∧
    (∀ (l : List (Bytes × Nat)) (h : Bytes),
       applyInserts l emptyLeafTbl h = minIndex h l) ∧
    (∀ (l l' : List (Bytes × Nat)), l.Perm l' →
       ∀ h, applyInserts l emptyLeafTbl h = applyInserts l' emptyLeafTbl h) ∧
    (∀ (tbl : LeafTbl) (hash : Bytes) (i j : Nat),
       tbl hash = some j → j ≤ i → leafUpsert tbl hash i = tbl) := by
  refine ⟨fun ops hs pos tbl i => processHashes_leaf ops hs pos tbl i,
    fun l h => ?_, fun l l' hp h => ?_, fun tbl hash i j hj hle => ?_⟩
  · rw [applyInserts_lookup]
    rfl
  · rw [applyInserts_lookup, applyInserts_lookup, minIndex_perm hp]
  · funext h
    unfold leafUpsert
    by_cases he : h = hash
    · subst he
      rw [if_pos rfl, hj]
      show (if i < j then some i else some j) = some j
      rw [if_neg (by omega)]
    · rw [if_neg he]

/-- C7 witness: inserting hash `[7]` at index 5 and again at index 5 (equal
index) leaves the row at 5; the two-insertion sequences `[(h,5),(h,9)]`
and `[(h,9),(h,5)]` both map `h` to 5. -/
theorem leafIndex_min_idempotent_witness :
    applyInserts [([7], 5), ([7], 9)] emptyLeafTbl [7] = some 5 ∧
    applyInserts [([7], 9), ([7], 5)] emptyLeafTbl [7] = some 5 ∧
    leafUpsert (leafUpsert emptyLeafTbl [7] 5) [7] 5 =
      leafUpsert emptyLeafTbl [7] 5 := by
  refine ⟨?_, ?_, ?_⟩
  · rw [leafIndex_min_idempotent.2.1]
    rfl
  · rw [leafIndex_min_idempotent.2.1]
    rfl
  · exact leafIndex_min_idempotent.2.2.2 (leafUpsert emptyLeafTbl [7] 5) [7] 5 5
      (by rfl) (by omega)

/-- The applier loop of `Server.tick`: consume downloader batches in
arrival order while `!position.IsComplete(sth.TreeSize)`.  Running out of
batches before completion models context cancellation / channel
starvation.  Returns whether completion was reached together with the
final position and leaf table. -/
def applierLoop {Pos : Type} (ops : PositionOps Pos) (treeSize : Nat) :
    List LeafHashes → Pos × LeafTbl → Bool × (Pos × LeafTbl)
  | [], st => (ops.isComplete st.1 treeSize, st)
  | b :: bs, st =>
    if ops.isComplete st.1 treeSize then (true, st)
    else applierLoop ops treeSize bs (processLeafHashes ops st b)

/-- The state `Server.tick`'s applier mutates: the in-memory position, the
leaf table, the persisted `state.sth` row, and the in-memory atomic STH
pointer read by the HTTP handlers. -/
structure IndexerState (Pos : Type) where
  position : Pos
  leaf : LeafTbl
  storedSTH : Option STH
  promoted : Option STH

/-- The applier goroutine of `Server.tick` (leaf indexing enabled): process
batches until `position.IsComplete(sth.TreeSize)`; when the loop ends
without completion the cycle fails (cancellation); on completion compare
`position.Subtree(0).CalculateRoot()` against `sth.SHA256RootHash`; on
mismatch return an error without touching the STH; on match
`Server.storeSTH` persists `state.sth` and stores the atomic pointer.
Returns the error, if any, and the final state. -/
def applierRun {Pos : Type} (ops : PositionOps Pos) (sth : STH)
    (batches : List LeafHashes) (st : IndexerState Pos) :
    Option String × IndexerState Pos :=
  match applierLoop ops sth.treeSize batches (st.position, st.leaf) with
  | (false, (pos, tbl)) =>
    (some "cancelled", { st with position := pos, leaf := tbl })
  | (true, (pos, tbl)) =>
    if ops.calcRoot pos ≠ sth.rootHash then
      (some "root hash mismatch", { st with position := pos, leaf := tbl })
    else
      (none, { position := pos, leaf := tbl,
               storedSTH := some sth, promoted := some sth })

lemma applierLoop_complete {Pos : Type} (ops : PositionOps Pos)
    (treeSize : Nat) :
    ∀ (batches : List LeafHashes) (st st' : Pos × LeafTbl),
      applierLoop ops treeSize batches st = (true, st') →
      ops.isComplete st'.1 treeSize = true := by
  intro batches
  induction batches with
  | nil =>
    intro st st' h
    unfold applierLoop at h
    rw [Prod.mk.injEq] at h
    obtain ⟨h1, h2⟩ := h
    rw [← h2]
    exact h1
  | cons b bs ih =>
    intro st st' h
    unfold applierLoop at h
    split at h
    · rename_i hc
      rw [Prod.mk.injEq] at h
      rw [← h.2]
      exact hc
    · exact ih _ _ h

/-- C1: in an indexing cycle with leaf indexing enabled, the promoted STH
(the atomic pointer) and the persisted `state.sth` change only when the
applier reached `position.IsComplete(sth.TreeSize)` and the root hash
recomputed from the indexed leaf hashes equals the checkpoint's root hash,
and then both become the newly downloaded checkpoint; whenever the final
position's recomputed root differs from the checkpoint's root hash, the
cycle returns an error and neither the pointer nor the persisted STH
changes.  Stated for every implementation `ops` of the merkletree
operations, every checkpoint, every batch arrival order, and every
starting state. -/
theorem sth_promoted_only_after_root_verified {Pos : Type}
    (ops : PositionOps Pos) (sth : STH) (batches : List LeafHashes)
    (st : IndexerState Pos) :
    (∀ (err : Option String) (st' : IndexerState Pos),
      applierRun ops sth batches st = (err, st') →
      st'.promoted ≠ st.promoted ∨ st'.storedSTH ≠ st.storedSTH →
      err = none ∧
      ops.isComplete st'.position sth.treeSize = true ∧
      ops.calcRoot st'.position = sth.rootHash ∧
      st'.promoted = some sth ∧ st'.storedSTH = some sth) ∧
    (∀ (err : Option String) (st' : IndexerState Pos),
      applierRun ops sth batches st = (err, st') →
      ops.calcRoot st'.position ≠ sth.rootHash →
      err ≠ none ∧ st'.promoted = st.promoted ∧ st'.storedSTH = st.storedSTH) := by
  constructor
  · intro err st' h hchanged
    unfold applierRun at h
    split at h
    · rename_i pos tbl heq
      rw [Prod.mk.injEq] at h
      obtain ⟨rfl, rfl⟩ := h
      simp at hchanged
    · rename_i pos tbl heq
      split at h
      · rename_i hne
        rw [Prod.mk.injEq] at h
        obtain ⟨rfl, rfl⟩ := h
        simp at hchanged
      · rename_i hne
        rw [Prod.mk.injEq] at h
        obtain ⟨rfl, rfl⟩ := h
        push_neg at hne
        exact ⟨rfl, applierLoop_complete ops sth.treeSize batches _ _ heq, hne, rfl, rfl⟩
  · intro err st' h hmismatch
    unfold applierRun at h
    split at h
    · rename_i pos tbl heq
      rw [Prod.mk.injEq] at h
      obtain ⟨rfl, rfl⟩ := h
      exact ⟨by simp, rfl, rfl⟩
    · rename_i pos tbl heq
      split at h
      · rename_i hne
        rw [Prod.mk.injEq] at h
        obtain ⟨rfl, rfl⟩ := h
        exact ⟨by simp, rfl, rfl⟩
      · rename_i hne
        rw [Prod.mk.injEq] at h
        obtain ⟨rfl, rfl⟩ := h
        push_neg at hne
        exact absurd hne hmismatch

/-- Concrete merkletree-operation instantiation for exercising the applier:
the position is the number of absorbed leaves and the root is the
singleton of that count. -/
def countOps : PositionOps Nat :=
  ⟨fun p _ _ => p + 1, fun p n => decide (n ≤ p), fun p => [p]⟩

def oneLeafSTH : STH := ⟨1, 0, [1], []⟩

def oneLeafBatches : List LeafHashes := [⟨0, [[42]]⟩]

def freshIndexerState : IndexerState Nat := ⟨0, emptyLeafTbl, none, none⟩

/-- C1 witness: with the concrete instantiation, one batch completes the
tree and the root matches: the run succeeds and promotes the checkpoint,
as the theorem's consequences state. -/
theorem sth_promoted_only_after_root_verified_witness :
    (applierRun countOps oneLeafSTH oneLeafBatches freshIndexerState).1 = none ∧
    (applierRun countOps oneLeafSTH oneLeafBatches freshIndexerState).2.promoted =
      some oneLeafSTH ∧
    (applierRun countOps oneLeafSTH oneLeafBatches freshIndexerState).2.storedSTH =
      some oneLeafSTH := by
  have h := (sth_promoted_only_after_root_verified countOps oneLeafSTH
      oneLeafBatches freshIndexerState).1
    (applierRun countOps oneLeafSTH oneLeafBatches freshIndexerState).1
    (applierRun countOps oneLeafSTH oneLeafBatches freshIndexerState).2
    rfl
    (Or.inl (by
      rw [show (applierRun countOps oneLeafSTH oneLeafBatches
            freshIndexerState).2.promoted = some oneLeafSTH from rfl,
          show freshIndexerState.promoted = none from rfl]
      simp))
  exact ⟨h.1, h.2.2.2.1, h.2.2.2.2⟩

/-! ### Retry loop (proxy/download.go, downloadRetry) -/

/-- Outcome of one `download` call: success, an HTTP `*downloadError`
carrying a status code and `Retry-After`, or a non-`downloadError` error
(e.g. a request-construction failure), which `errors.As` rejects. -/
inductive FetchOutcome
  | ok (body : Bytes)
  | derr (status : Nat) (retryAfter : Nat)
  | plainErr

/-- The environment of a retry sequence: the outcome of the `k`-th HTTP
attempt, and whether the sleep before retry `k+1` completes (a planned
retry past the context deadline, or a cancelled sleep, counts as `false`
and aborts). -/
structure RetryEnv where
  attempt : Nat → FetchOutcome
  sleepOK : Nat → Bool

def maxRetries : Nat := 5

/-- `isRetryableStatusCode` from proxy/download.go (final version):
`code/100 == 5 || code == 429 || code == 400`. -/
def isRetryableStatusCode (code : Nat) : Bool :=
  code / 100 = 5 || code = 429 || code = 400

/-- The loop of `downloadRetry`: attempt, then on a `downloadError` stop
when `numRetries == maxRetries`, when the status is not retryable, or when
the backoff sleep is cut short; otherwise increment `numRetries` and
retry.  The loop is driven by fuel `maxRetries + 1 - numRetries`, whose
exhaustion branch is unreachable from the initial call.  Returns the
result and the total number of HTTP attempts performed. -/
def downloadRetryLoop (env : RetryEnv) : Nat → Nat → Option Bytes × Nat
  | _, 0 => (none, 0)
  | numRetries, fuel + 1 =>
    match env.attempt numRetries with
    | .ok body => (some body, 1)
    | .plainErr => (none, 1)
    | .derr status _ =>
      if numRetries = maxRetries then (none, 1)
      else if ¬ isRetryableStatusCode status then (none, 1)
      else if ¬ env.sleepOK numRetries then (none, 1)
      else
        let r := downloadRetryLoop env (numRetries + 1) fuel
        (r.1, r.2 + 1)

/-- `downloadRetry` from proxy/download.go (final version), with
`numRetries` starting at 0. -/
def downloadRetry (env : RetryEnv) : Option Bytes × Nat :=
  downloadRetryLoop env 0 (maxRetries + 1)

lemma downloadRetryLoop_attempts_le (env : RetryEnv) :
    ∀ (fuel numRetries : Nat),
      (downloadRetryLoop env numRetries fuel).2 ≤ fuel := by
  intro fuel
  induction fuel with
  | zero => intro numRetries; rw [downloadRetryLoop]
  | succ fuel ih =>
    intro numRetries
    rw [downloadRetryLoop]
    cases env.attempt numRetries with
    | ok body => dsimp only; omega
    | plainErr => dsimp only; omega
    | derr status retryAfter =>
      dsimp only
      split_ifs <;>
        first
        | omega
        | (dsimp only
           have := ih (numRetries + 1)
           omega)

lemma downloadRetryLoop_fails (env : RetryEnv)
    (hfail : ∀ (k : Nat) (b : Bytes), env.attempt k ≠ .ok b) :
    ∀ (fuel numRetries : Nat),
      (downloadRetryLoop env numRetries fuel).1 = none := by
  intro fuel
  induction fuel with
  | zero => intro numRetries; rw [downloadRetryLoop]
  | succ fuel ih =>
    intro numRetries
    rw [downloadRetryLoop]
    cases ha : env.attempt numRetries with
    | ok body => exact absurd ha (hfail numRetries body)
    | plainErr => rfl
    | derr status retryAfter =>
      dsimp only
      split_ifs <;>
        first
        | rfl
        | (dsimp only
           exact ih (numRetries + 1))

/-- C9: for every environment in which no HTTP attempt ever succeeds,
`downloadRetry` terminates (it is a total function) returning an error,
and performs at most `maxRetries + 1 = 6` HTTP attempts in total. -/
theorem downloadRetry_at_most_six_attempts (env : RetryEnv)
    (hfail : ∀ (k : Nat) (b : Bytes), env.attempt k ≠ .ok b) :
    (downloadRetry env).1 = none ∧ (downloadRetry env).2 ≤ 6 := by
  exact ⟨downloadRetryLoop_fails env hfail (maxRetries + 1) 0,
    downloadRetryLoop_attempts_le env (maxRetries + 1) 0⟩

/-- C9 witness: an upstream that always answers 503 (retryable) with all
sleeps completing: the fetch fails and performs at most 6 attempts. -/
theorem downloadRetry_at_most_six_attempts_witness :
    (downloadRetry ⟨fun _ => .derr 503 0, fun _ => true⟩).1 = none ∧
    (downloadRetry ⟨fun _ => .derr 503 0, fun _ => true⟩).2 ≤ 6 := by
  exact downloadRetry_at_most_six_attempts ⟨fun _ => .derr 503 0, fun _ => true⟩
    (by intro k b h; cases h)

/-! ### Issuer cache (proxy/download.go, Server.getIssuer) -/

abbrev IssuerCache := Bytes → Option Bytes

/-- `Server.getIssuer` modulo I/O: `hashFn` abstracts `sha256.Sum256`;
`response` is the body `downloadRetry` returned for the issuer URL
(`none` = download failed).  Cache lookup first; on a miss, download,
verify the hash of the response against the requested fingerprint, and
only then insert — insert-if-absent (`ON CONFLICT (sha256) DO NOTHING`).
Returns the issuer bytes or an error, with the resulting cache. -/
def getIssuer (hashFn : Bytes → Bytes) (cache : IssuerCache)
    (response : Option Bytes) (fingerprint : Bytes) :
    Option Bytes × IssuerCache :=
  match cache fingerprint with
  | some data => (some data, cache)
  | none =>
    match response with
    | none => (none, cache)
    | some data =>
      if hashFn data = fingerprint then
        (some data,
         fun f => if f = fingerprint then
             match cache f with
             | none => some data
             | some d => some d
           else cache f)
      else (none, cache)

/-- C8: `getIssuer` preserves the content-addressing invariant
`sha256(cache[f]) = f`: if every cached row hashes to its key, then after
any `getIssuer` call every cached row still hashes to its key; and when
the fingerprint is absent from the cache and the downloaded response does
not hash to the fingerprint, the call returns an error and the cache is
unchanged (the fingerprint is not populated). -/
theorem getIssuer_content_addressed (hashFn : Bytes → Bytes)
    (cache : IssuerCache) (response : Option Bytes) (fingerprint : Bytes)
    (hinv : ∀ f d, cache f = some d → hashFn d = f) :
    (∀ f d, (getIssuer hashFn cache response fingerprint).2 f = some d →
      hashFn d = f) ∧
    (∀ data, cache fingerprint = none → response = some data →
      hashFn data ≠ fingerprint →
      (getIssuer hashFn cache response fingerprint).1 = none ∧
      (getIssuer hashFn cache response fingerprint).2 = cache) := by
  constructor
  · intro f d h
    unfold getIssuer at h
    split at h
    · exact hinv f d h
    · split at h
      · exact hinv f d h
      · rename_i data
        split at h
        · rename_i hgood
          simp only at h
          by_cases hf : f = fingerprint
          · subst hf
            rw [if_pos rfl] at h
            cases hc : cache f with
            | none =>
              rw [hc] at h
              cases h
              exact hgood
            | some d0 =>
              rw [hc] at h
              cases h
              exact hinv f d hc
          · rw [if_neg hf] at h
            exact hinv f d h
        · exact hinv f d h
  · intro data hmiss hresp hbad
    unfold getIssuer
    rw [hmiss, hresp]
    dsimp only
    rw [if_neg hbad]
    exact ⟨rfl, rfl⟩

/-- C8 witness: with the identity as the hash function, an empty cache, a
response `[1]` for fingerprint `[2]` (hash mismatch): the call fails and
the cache stays empty. -/
theorem getIssuer_content_addressed_witness :
    (getIssuer id (fun _ => none) (some [1]) [2]).1 = none ∧
    (getIssuer id (fun _ => none) (some [1]) [2]).2 = (fun _ => none) := by
  exact (getIssuer_content_addressed id (fun _ => none) (some [1]) [2]
    (by intro f d h; cases h)).2 [1] rfl rfl (by decide)

/-! ### Startup STH loading (proxy/server.go, NewServer) -/

/-- The STH-loading step of `NewServer`: `stored` is the `state.sth` column
(NULL = `none`); `decode` abstracts `json.Unmarshal` into
`signedTreeHead`.  When bytes are present they are decoded and the result
is stored in the atomic pointer with no further checks (no comparison
against the position or the upstream log); undecodable bytes abort
`NewServer` with an error. -/
def newServerSTH (stored : Option Bytes) (decode : Bytes → Option STH) :
    Except String (Option STH) :=
  match stored with
  | none => .ok none
  | some b =>
    match decode b with
    | none => .error "STH stored in database is corrupted"
    | some sth => .ok (some sth)

/-- C10: if the state table holds STH bytes that decode, `NewServer`
promotes the decoded STH as-is — for every decoder and every decoded
value, with no verification of the root hash against anything — and if the
stored bytes are present but do not decode, `NewServer` fails with an
error instead of starting. -/
theorem newServer_promotes_stored_sth (stored : Option Bytes)
    (decode : Bytes → Option STH) :
    (∀ b sth, stored = some b → decode b = some sth →
      newServerSTH stored decode = .ok (some sth)) ∧
    (∀ b, stored = some b → decode b = none →
      ∃ msg, newServerSTH stored decode = .error msg) := by
  constructor
  · intro b sth hb hd
    unfold newServerSTH
    rw [hb]
    dsimp only
    rw [hd]
  · intro b hb hd
    unfold newServerSTH
    rw [hb]
    dsimp only
    rw [hd]
    exact ⟨_, rfl⟩

/-- C10 witness: stored bytes decoding to an arbitrary STH of size 5 are
promoted unchanged; the same bytes with a failing decoder abort startup. -/
theorem newServer_promotes_stored_sth_witness :
    newServerSTH (some [1]) (fun _ => some ⟨5, 0, [9], []⟩) =
      .ok (some ⟨5, 0, [9], []⟩) ∧
    ∃ msg, newServerSTH (some [1]) (fun _ => none) = .error msg := by
  exact ⟨(newServer_promotes_stored_sth (some [1])
      (fun _ => some ⟨5, 0, [9], []⟩)).1 [1] ⟨5, 0, [9], []⟩ rfl rfl,
    (newServer_promotes_stored_sth (some [1]) (fun _ => none)).2 [1] rfl rfl⟩

end Sunglasses
